import Mathlib

/-!
Verification of the Tilora BSP layout engine (`src/renderer/layout/bsp.ts`)
and the tile lifecycle / focus logic (`src/renderer/layout/tile-manager.ts`).

JavaScript numbers are embedded as rationals (`ℚ`); `Math.round` (which
rounds half toward positive infinity) is `jsRound`.  Fresh UUIDs produced
by `uuidv4()` are modelled as explicit parameters, with freshness stated as
hypotheses where a claim needs it.  Reference (`===`/`!==`) comparisons in
`removeNode` are embedded as structural (dis)equality: `removeNode` returns
the identical tree exactly when the target is absent, and any tree it
builds on a successful removal has strictly fewer leaves than its input, so
the two notions agree on every comparison the function performs.
-/

namespace Tilora

/-- JavaScript `Math.round`: rounds half toward positive infinity. -/
def jsRound (q : ℚ) : ℤ := ⌊q + 1/2⌋

/-- `SplitDirection` from bsp.ts. -/
inductive SplitDirection where
  | horizontal
  | vertical
deriving DecidableEq, Repr

/-- `LayoutNode` from bsp.ts: a split node (`id`, `direction`, `ratio`,
`first`, `second`) or a leaf node (`id`, `tileId`). -/
inductive LayoutNode where
  | split (id : String) (direction : SplitDirection) (ratio : ℚ)
      (first second : LayoutNode)
  | leaf (id : String) (tileId : String)
deriving DecidableEq, Repr

/-- `Bounds` from bsp.ts. -/
structure Bounds where
  x : ℚ
  y : ℚ
  width : ℚ
  height : ℚ
deriving DecidableEq, Repr

/-- `TileBounds` from bsp.ts. -/
structure TileBounds where
  tileId : String
  bounds : Bounds
deriving DecidableEq, Repr

/-- `createLeaf` from bsp.ts, with the two `uuidv4()` results made explicit
parameters (`leafId` for the node id, `tileId` for the tile id). -/
def createLeaf (leafId : String) (tileId : String) : LayoutNode :=
  .leaf leafId tileId

/-- `splitNodeRecursive` from bsp.ts.  The fresh ids drawn from `uuidv4()`
(`newTileId` for the new leaf's tile, `newLeafId` for the new leaf's node id,
`newSplitId` for the new split's node id) are explicit parameters. -/
def splitNodeRecursive (node : LayoutNode) (targetId : String)
    (direction : SplitDirection) (ratio : ℚ)
    (newTileId newLeafId newSplitId : String) : Option LayoutNode :=
  match node with
  | .leaf id tileId =>
    if id = targetId ∨ tileId = targetId then
      some (.split newSplitId direction ratio (.leaf id tileId)
        (createLeaf newLeafId newTileId))
    else
      none
  | .split id dir r first second =>
    match splitNodeRecursive first targetId direction ratio newTileId newLeafId newSplitId with
    | some firstResult => some (.split id dir r firstResult second)
    | none =>
      match splitNodeRecursive second targetId direction ratio newTileId newLeafId newSplitId with
      | some secondResult => some (.split id dir r first secondResult)
      | none => none

/-- `splitNode` from bsp.ts (fresh uuids as explicit parameters). -/
def splitNode (root : LayoutNode) (targetId : String)
    (direction : SplitDirection) (ratio : ℚ)
    (newTileId newLeafId newSplitId : String) :
    Option (LayoutNode × String) :=
  match splitNodeRecursive root targetId direction ratio newTileId newLeafId newSplitId with
  | some result => some (result, newTileId)
  | none => none

/-- The `root.first.type === 'leaf' && (root.first.id === targetId ||
root.first.tileId === targetId)` test from `removeNode`. -/
def matchesLeaf (node : LayoutNode) (targetId : String) : Bool :=
  match node with
  | .leaf id tileId => id = targetId ∨ tileId = targetId
  | .split _ _ _ _ _ => false

/-- `removeNode` from bsp.ts; `none` embeds the `null` return ("tree became
empty").  The source's reference tests `newFirst !== root.first` are embedded
as structural disequality (see the header comment). -/
def removeNode (root : LayoutNode) (targetId : String) : Option LayoutNode :=
  match root with
  | .leaf id tileId =>
    if id = targetId ∨ tileId = targetId then none else some (.leaf id tileId)
  | .split sid dir r first second =>
    if matchesLeaf first targetId then some second
    else if matchesLeaf second targetId then some first
    else
      let newFirst := removeNode first targetId
      if newFirst ≠ some first then
        match newFirst with
        | none => some second
        | some nf => some (.split sid dir r nf second)
      else
        let newSecond := removeNode second targetId
        if newSecond ≠ some second then
          match newSecond with
          | none => some first
          | some ns => some (.split sid dir r first ns)
        else
          some (.split sid dir r first second)

/-- The clamp `Math.max(0.1, Math.min(0.9, newRatio))` from bsp.ts. -/
def clampRatio (r : ℚ) : ℚ := max (1/10) (min (9/10) r)

/-- `resizeSplit` from bsp.ts. -/
def resizeSplit (root : LayoutNode) (splitId : String) (newRatio : ℚ) :
    LayoutNode :=
  match root with
  | .leaf id tileId => .leaf id tileId
  | .split sid dir r first second =>
    if sid = splitId then .split sid dir (clampRatio newRatio) first second
    else .split sid dir r (resizeSplit first splitId newRatio)
      (resizeSplit second splitId newRatio)

/-- `calculateBounds` from bsp.ts. -/
def calculateBounds (node : LayoutNode) (containerBounds : Bounds) :
    List TileBounds :=
  match node with
  | .leaf _ tileId => [⟨tileId, containerBounds⟩]
  | .split _ direction ratio first second =>
    let x := containerBounds.x
    let y := containerBounds.y
    let w := containerBounds.width
    let h := containerBounds.height
    match direction with
    | .vertical =>
      let splitX : ℚ := (jsRound (x + w * ratio) : ℤ)
      calculateBounds first ⟨x, y, splitX - x, h⟩ ++
        calculateBounds second ⟨splitX, y, x + w - splitX, h⟩
    | .horizontal =>
      let splitY : ℚ := (jsRound (y + h * ratio) : ℤ)
      calculateBounds first ⟨x, y, w, splitY - y⟩ ++
        calculateBounds second ⟨x, splitY, w, y + h - splitY⟩

/-- `getAllTileIds` from bsp.ts. -/
def getAllTileIds (node : LayoutNode) : List String :=
  match node with
  | .leaf _ tileId => [tileId]
  | .split _ _ _ first second => getAllTileIds first ++ getAllTileIds second

/-- `countTiles` from bsp.ts. -/
def countTiles (node : LayoutNode) : Nat :=
  match node with
  | .leaf _ _ => 1
  | .split _ _ _ first second => countTiles first + countTiles second

/-- `containsTile` from bsp.ts. -/
def containsTile (node : LayoutNode) (tileId : String) : Bool :=
  match node with
  | .leaf _ tid => tid = tileId
  | .split _ _ _ first second =>
    containsTile first tileId || containsTile second tileId

/-- Result of `whichChild` from bsp.ts. -/
inductive ChildPos where
  | first
  | second
deriving DecidableEq, Repr

/-- `whichChild` from bsp.ts (only ever called on split nodes; on a leaf it
answers `none` like the fall-through). -/
def whichChild (node : LayoutNode) (tileId : String) : Option ChildPos :=
  match node with
  | .split _ _ _ first second =>
    if containsTile first tileId then some .first
    else if containsTile second tileId then some .second
    else none
  | .leaf _ _ => none

/-- `findAncestorSplits` from bsp.ts (the accumulated `ancestors` list holds
the split nodes on the path from the root). -/
def findAncestorSplits (root : LayoutNode) (tileId : String)
    (ancestors : List LayoutNode) : List LayoutNode :=
  match root with
  | .leaf _ tid => if tid = tileId then ancestors else []
  | .split id d r first second =>
    let cur := LayoutNode.split id d r first second
    let inFirst := findAncestorSplits first tileId (ancestors ++ [cur])
    if inFirst ≠ [] then inFirst
    else findAncestorSplits second tileId (ancestors ++ [cur])

/-- Node id of a layout node. -/
def LayoutNode.nid (n : LayoutNode) : String :=
  match n with
  | .split i _ _ _ _ => i
  | .leaf i _ => i

/-- Split direction of a node (none for leaves). -/
def LayoutNode.dirOf (n : LayoutNode) : Option SplitDirection :=
  match n with
  | .split _ d _ _ _ => some d
  | .leaf _ _ => none

/-- Ratio of a node (0 for leaves; only read off split nodes). -/
def LayoutNode.ratioOf (n : LayoutNode) : ℚ :=
  match n with
  | .split _ _ r _ _ => r
  | .leaf _ _ => 0

/-- `Direction` from bsp.ts. -/
inductive Direction where
  | left
  | right
  | up
  | down
deriving DecidableEq, Repr

/-- `direction === 'left' || direction === 'right' ? 'vertical' : 'horizontal'`
from `adjustSplitInDirection`. -/
def targetSplitDir (d : Direction) : SplitDirection :=
  match d with
  | .left => .vertical
  | .right => .vertical
  | .up => .horizontal
  | .down => .horizontal

/-- The `adjustedDelta` computation from `adjustSplitInDirection`. -/
def adjustedDelta (splitDirection : SplitDirection) (pos : Option ChildPos)
    (direction : Direction) (delta : ℚ) : ℚ :=
  match splitDirection with
  | .vertical =>
    if pos = some .first then (if direction = .right then delta else -delta)
    else (if direction = .left then -delta else delta)
  | .horizontal =>
    if pos = some .first then (if direction = .down then delta else -delta)
    else (if direction = .up then -delta else delta)

/-- `adjustSplitInDirection` from bsp.ts.  The `for` loop from the innermost
ancestor outward is the first match in the reversed ancestor list. -/
def adjustSplitInDirection (root : LayoutNode) (tileId : String)
    (direction : Direction) (delta : ℚ) : LayoutNode :=
  let ancestors := findAncestorSplits root tileId []
  if ancestors = [] then root
  else
    match (ancestors.reverse).find?
        (fun s => s.dirOf = some (targetSplitDir direction)) with
    | none => root
    | some split =>
      let ad := adjustedDelta (targetSplitDir direction)
        (whichChild split tileId) direction delta
      let newRatio := max (1/10) (min (9/10) (split.ratioOf + ad))
      resizeSplit root split.nid newRatio

/-- `swapTilesRecursive` from bsp.ts. -/
def swapTilesRecursive (node : LayoutNode) (tileId1 tileId2 : String) :
    LayoutNode :=
  match node with
  | .leaf id tid =>
    if tid = tileId1 then .leaf id tileId2
    else if tid = tileId2 then .leaf id tileId1
    else .leaf id tid
  | .split id d r first second =>
    .split id d r (swapTilesRecursive first tileId1 tileId2)
      (swapTilesRecursive second tileId1 tileId2)

/-- `swapTiles` from bsp.ts. -/
def swapTiles (root : LayoutNode) (tileId1 tileId2 : String) : LayoutNode :=
  swapTilesRecursive root tileId1 tileId2

/-- x-coordinate of a rectangle's center, as in `findAdjacentTile`. -/
def centerX (b : Bounds) : ℚ := b.x + b.width / 2

/-- y-coordinate of a rectangle's center, as in `findAdjacentTile`. -/
def centerY (b : Bounds) : ℚ := b.y + b.height / 2

/-- The `isInDirection` test from `findAdjacentTile` (`cur` is the current
tile's bounds, `tile` the candidate's). -/
def isInDirection (cur tile : Bounds) (d : Direction) : Bool :=
  match d with
  | .left => tile.x + tile.width ≤ cur.x + 5
  | .right => tile.x ≥ cur.x + cur.width - 5
  | .up => tile.y + tile.height ≤ cur.y + 5
  | .down => tile.y ≥ cur.y + cur.height - 5

/-- The `primaryDistance` value from `findAdjacentTile`. -/
def primaryDistance (cur tile : Bounds) (d : Direction) : ℚ :=
  match d with
  | .left => centerX cur - centerX tile
  | .right => centerX tile - centerX cur
  | .up => centerY cur - centerY tile
  | .down => centerY tile - centerY cur

/-- The `alignment` value from `findAdjacentTile`. -/
def alignTo (cur tile : Bounds) (d : Direction) : ℚ :=
  match d with
  | .left => |centerY cur - centerY tile|
  | .right => |centerY cur - centerY tile|
  | .up => |centerX cur - centerX tile|
  | .down => |centerX cur - centerX tile|

/-- A candidate qualifies in `findAdjacentTile` when `isInDirection` holds and
`primaryDistance > 0`. -/
def qualifies (cur tile : Bounds) (d : Direction) : Bool :=
  isInDirection cur tile d && decide (0 < primaryDistance cur tile d)

/-- The sort key `alignment * 2 + distance` from `findAdjacentTile`. -/
def dirScore (cur tile : Bounds) (d : Direction) : ℚ :=
  alignTo cur tile d * 2 + primaryDistance cur tile d

/-- `candidates[0]` after the stable ascending sort by score in
`findAdjacentTile`: the earliest candidate with minimal score. -/
def pickBest (cur : Bounds) (d : Direction) (c : TileBounds)
    (cs : List TileBounds) : TileBounds :=
  cs.foldl (fun best t =>
    if dirScore cur t.bounds d < dirScore cur best.bounds d then t else best) c

/-- The body of `findAdjacentTile` after the current tile has been located:
collect the qualifying candidates in list order and pick the best one. -/
def adjacentFrom (tileBounds : List TileBounds) (currentTileId : String)
    (direction : Direction) (current : TileBounds) : Option String :=
  match tileBounds.filter (fun t =>
      t.tileId ≠ currentTileId ∧ qualifies current.bounds t.bounds direction) with
  | [] => none
  | c :: cs => some (pickBest current.bounds direction c cs).tileId

/-- `findAdjacentTile` from bsp.ts.  `Array.prototype.find` is `List.find?`;
the candidate loop keeps list order, and JavaScript's stable sort followed by
`candidates[0]` picks the earliest minimal-score candidate (`pickBest`). -/
def findAdjacentTile (tileBounds : List TileBounds) (currentTileId : String)
    (direction : Direction) : Option String :=
  match tileBounds.find? (fun t => t.tileId = currentTileId) with
  | none => none
  | some current => adjacentFrom tileBounds currentTileId direction current

/-! ### Predicates used by the theorems -/

/-- Every split ratio in the tree lies in `[lo, hi]`. -/
def ratiosInB (lo hi : ℚ) (t : LayoutNode) : Bool :=
  match t with
  | .leaf _ _ => true
  | .split _ _ r first second =>
    decide (lo ≤ r) && decide (r ≤ hi) && ratiosInB lo hi first && ratiosInB lo hi second

/-- `s` occurs in the tree as the node id or tile id of some leaf (the only
ids `splitNodeRecursive` and `removeNode` match against). -/
def leafOccurs (t : LayoutNode) (s : String) : Bool :=
  match t with
  | .leaf id tileId => id = s ∨ tileId = s
  | .split _ _ _ first second => leafOccurs first s || leafOccurs second s

/-- The tree with every split ratio replaced by `0`: everything about the tree
except its ratio values. -/
def stripRatios (t : LayoutNode) : LayoutNode :=
  match t with
  | .leaf id tid => .leaf id tid
  | .split id d _ first second => .split id d 0 (stripRatios first) (stripRatios second)

/-- The `(id, ratio)` pairs of all splits, in preorder. -/
def splitRatios (t : LayoutNode) : List (String × ℚ) :=
  match t with
  | .leaf _ _ => []
  | .split id _ r first second => (id, r) :: (splitRatios first ++ splitRatios second)

/-- Preorder list of split node ids. -/
def splitIds (t : LayoutNode) : List String := (splitRatios t).map Prod.fst

/-- The tree with every leaf's `tileId` replaced by `""`: the split structure,
node ids, directions and ratios, independent of tile labelling. -/
def stripTileIds (t : LayoutNode) : LayoutNode :=
  match t with
  | .leaf id _ => .leaf id ""
  | .split id d r first second =>
    .split id d r (stripTileIds first) (stripTileIds second)

/-- `q` is an integer. -/
def IsInt (q : ℚ) : Prop := ∃ n : ℤ, q = (n : ℚ)

/-- All four coordinates of a rectangle are integers. -/
def IntRect (b : Bounds) : Prop :=
  IsInt b.x ∧ IsInt b.y ∧ IsInt b.width ∧ IsInt b.height

/-- The point `(px, py)` lies in the half-open rectangle
`[x, x+width) × [y, y+height)`. -/
def inRect (b : Bounds) (px py : ℚ) : Prop :=
  b.x ≤ px ∧ px < b.x + b.width ∧ b.y ≤ py ∧ py < b.y + b.height

/-- Some rectangle of the list contains the point. -/
def coveredBy (l : List TileBounds) (px py : ℚ) : Prop :=
  ∃ tb ∈ l, inRect tb.bounds px py

/-- The rectangles of `l` exactly tile `cb`: their union is `cb` and no two
of them share a point. -/
def ExactTiling (l : List TileBounds) (cb : Bounds) : Prop :=
  (∀ px py, coveredBy l px py ↔ inRect cb px py) ∧
  List.Pairwise (fun a b => ∀ px py, inRect a.bounds px py → ¬inRect b.bounds px py) l

/-! ### Tile lifecycle and focus (tile-manager.ts) -/

/-- `TILE_LIFECYCLE.sleepThresholdWidth` from shared/constants.ts. -/
def sleepThresholdWidth : ℚ := 200

/-- `TILE_LIFECYCLE.sleepThresholdHeight` from shared/constants.ts. -/
def sleepThresholdHeight : ℚ := 150

/-- `TileManager.shouldSleep` from tile-manager.ts. -/
def shouldSleep (b : Bounds) : Bool :=
  decide (b.width < sleepThresholdWidth) || decide (b.height < sleepThresholdHeight)

/-- What a layout pass does with one tile's computed bounds. -/
inductive LayoutAction where
  | sleep
  | setBounds
  | wake
  | reposition
deriving DecidableEq, Repr

/-- The per-tile branch of `TileManager.updateLayout`: a tile with a live
proxy is put to sleep when `shouldSleep(bounds) && tileId !== focusedTileId`,
otherwise its view bounds are updated; a sleeping tile is woken when
`!shouldSleep(bounds)`, otherwise its placeholder is repositioned; a tile id
with neither record is skipped. -/
def layoutPassAction (hasProxy hasSleeping : Bool) (b : Bounds)
    (tileId : String) (focusedTileId : Option String) : Option LayoutAction :=
  if hasProxy then
    if shouldSleep b && decide (focusedTileId ≠ some tileId) then some .sleep
    else some .setBounds
  else if hasSleeping then
    if !shouldSleep b then some .wake
    else some .reposition
  else none

/-- The tile-id bookkeeping of `TileManager`: which ids have a live proxy
(`tileProxies` keys), which are sleeping (`sleepingTiles` keys), and the
focused id. -/
structure TMState where
  live : List String
  sleeping : List String
  focused : Option String
deriving DecidableEq, Repr

/-- The synchronous execution of `TileManager.focusTile(tileId)` on the state
it can change before returning.  `void this.wakeTile(tileId)` runs `wakeTile`
up to its first `await`: the sleeping record is deleted synchronously, but the
proxy is recreated only after the awaited IPC call inside `createTile`
resolves.  So at the following `if (!this.tileProxies.has(tileId)) return;`
a previously sleeping tile has no proxy yet, and `focusedTileId` is assigned
only when the tile already had a live proxy. -/
def focusTile (s : TMState) (tileId : String) : TMState :=
  let s1 :=
    if tileId ∈ s.sleeping then
      { s with sleeping := s.sleeping.erase tileId }
    else s
  if tileId ∈ s1.live then { s1 with focused := some tileId } else s1

/-! ## Helper lemmas -/

theorem matchesLeaf_false_of_not_occurs {n : LayoutNode} {s : String}
    (h : leafOccurs n s = false) : matchesLeaf n s = false := by
  cases n with
  | leaf id tid => simpa [leafOccurs, matchesLeaf] using h
  | split id d r f sec => simp [matchesLeaf]

theorem leafOccurs_split {id : String} {d : SplitDirection} {r : ℚ}
    {f s : LayoutNode} {t : String} :
    leafOccurs (.split id d r f s) t = (leafOccurs f t || leafOccurs s t) := rfl

theorem removeNode_no_match {t : LayoutNode} {s : String}
    (h : leafOccurs t s = false) : removeNode t s = some t := by
  induction t with
  | leaf id tid =>
    have h' : ¬(id = s ∨ tid = s) := by simpa [leafOccurs] using h
    simp only [removeNode, if_neg h']
  | split sid d r f sec ihf ihs =>
    rw [leafOccurs_split, Bool.or_eq_false_iff] at h
    obtain ⟨hf, hs⟩ := h
    simp only [removeNode, matchesLeaf_false_of_not_occurs hf,
      matchesLeaf_false_of_not_occurs hs, Bool.false_eq_true, if_false,
      ihf hf, ihs hs, ne_eq, not_true_eq_false, reduceIte]

theorem removeNode_split_isSome (sid : String) (d : SplitDirection) (r : ℚ)
    (f s : LayoutNode) (t : String) :
    (removeNode (.split sid d r f s) t).isSome = true := by
  rw [removeNode]
  rcases hf : matchesLeaf f t with _ | _ <;>
    rcases hs : matchesLeaf s t with _ | _ <;>
      rcases hrf : removeNode f t with _ | nf <;>
        rcases hrs : removeNode s t with _ | ns <;>
          by_cases h1 : removeNode f t ≠ some f <;>
            by_cases h2 : removeNode s t ≠ some s <;>
              simp_all

/-! ## Claim theorems -/

/-- C4: `removeNode` promotes the sibling when the target leaf is a direct
child of a split (in either position); it returns the empty-tree sentinel
(`none`, embedding `null`) exactly when the root itself is a leaf matching the
target; and when the target occurs nowhere it returns the original tree as a
no-op, never a "not found" signal. -/
theorem removeNode_semantics :
    (∀ (sid : String) (d : SplitDirection) (r : ℚ) (first second : LayoutNode)
        (tid : String), matchesLeaf first tid = true →
      removeNode (.split sid d r first second) tid = some second) ∧
    (∀ (sid : String) (d : SplitDirection) (r : ℚ) (first second : LayoutNode)
        (tid : String), matchesLeaf first tid = false →
      matchesLeaf second tid = true →
      removeNode (.split sid d r first second) tid = some first) ∧
    (∀ (id tileId tid : String), (id = tid ∨ tileId = tid) →
      removeNode (.leaf id tileId) tid = none) ∧
    (∀ (root : LayoutNode) (tid : String), leafOccurs root tid = false →
      removeNode root tid = some root) ∧
    (∀ (root : LayoutNode) (tid : String), removeNode root tid = none →
      ∃ id tileId, root = .leaf id tileId ∧ (id = tid ∨ tileId = tid)) := by
  refine ⟨?_, ?_, ?_, ?_, ?_⟩
  · intro sid d r first second tid h
    simp [removeNode, h]
  · intro sid d r first second tid h1 h2
    simp [removeNode, h1, h2]
  · intro id tileId tid h
    simp [removeNode, h]
  · intro root tid h
    exact removeNode_no_match h
  · intro root tid h
    cases root with
    | leaf id tileId =>
      by_cases hm : id = tid ∨ tileId = tid
      · exact ⟨id, tileId, rfl, hm⟩
      · simp [removeNode, hm] at h
    | split sid d r f s =>
      have := removeNode_split_isSome sid d r f s tid
      rw [h] at this
      simp at this

/-- Witness for C4 at concrete inputs. -/
theorem removeNode_semantics_witness :
    removeNode (.split "s" .vertical (1/2) (.leaf "a" "A") (.leaf "b" "B")) "A"
        = some (.leaf "b" "B") ∧
    removeNode (.split "s" .vertical (1/2) (.leaf "a" "A") (.leaf "b" "B")) "B"
        = some (.leaf "a" "A") ∧
    removeNode (.leaf "a" "A") "A" = none ∧
    removeNode (.leaf "a" "A") "Z" = some (.leaf "a" "A") :=
  ⟨removeNode_semantics.1 "s" .vertical (1/2) _ _ "A" (by simp [matchesLeaf]),
   removeNode_semantics.2.1 "s" .vertical (1/2) _ _ "B"
     (by simp [matchesLeaf]) (by simp [matchesLeaf]),
   removeNode_semantics.2.2.1 "a" "A" "A" (Or.inr rfl),
   removeNode_semantics.2.2.2.1 _ "Z" (by simp [leafOccurs])⟩

/-- C9 evaluated at the failing input: calling `focusTile` on a tile that is
sleeping (and therefore has no live proxy) removes the sleeping record —
the wake is initiated — but returns with `focusedTileId` unchanged, because
the proxy is only recreated after the awaited IPC call and the
`if (!this.tileProxies.has(tileId)) return;` guard fires first. -/
theorem focusTile_sleeping_leaves_focus_unset :
    focusTile ⟨[], ["t1"], none⟩ "t1" = ⟨[], [], none⟩ ∧
    (focusTile ⟨[], ["t1"], none⟩ "t1").focused ≠ some "t1" := by
  constructor
  · simp [focusTile]
  · simp [focusTile]

/-- `swapTilesRecursive` relabels every `a`-leaf to `b` when `b` is absent. -/
theorem swapTiles_ids_of_absent {t : LayoutNode} {a b : String}
    (hb : b ∉ getAllTileIds t) :
    getAllTileIds (swapTilesRecursive t a b)
      = (getAllTileIds t).map (fun x => if x = a then b else x) := by
  induction t with
  | leaf id tid =>
    have htb : tid ≠ b := by simpa [getAllTileIds, eq_comm] using hb
    by_cases hta : tid = a
    · simp [swapTilesRecursive, getAllTileIds, hta]
    · simp [swapTilesRecursive, getAllTileIds, hta, htb]
  | split sid d r f s ihf ihs =>
    simp only [getAllTileIds, List.mem_append, not_or] at hb
    simp [swapTilesRecursive, getAllTileIds, ihf hb.1, ihs hb.2]

/-- `swapTilesRecursive` never changes the split structure or leaf node
ids. -/
theorem swapTiles_strip {t : LayoutNode} (a b : String) :
    stripTileIds (swapTilesRecursive t a b) = stripTileIds t := by
  induction t with
  | leaf id tid =>
    by_cases h1 : tid = a <;> by_cases h2 : tid = b <;>
      by_cases h3 : b = a <;>
        simp [swapTilesRecursive, stripTileIds, h1, h2, h3]
  | split sid d r f s ihf ihs => simp [swapTilesRecursive, stripTileIds, ihf, ihs]

/-- C10: `swapTiles` validates nothing — when `a` is present and `b` occurs in
no leaf, the `a`-leaf is relabelled to `b`: the tile-id list is rewritten by
the substitution `a ↦ b`, `a` no longer occurs anywhere, `b` now occurs, and
only leaf labels (not the tree structure) changed, so the tree's tile-id set
is changed rather than permuted. -/
theorem swapTiles_absent_relabels (t : LayoutNode) (a b : String)
    (ha : a ∈ getAllTileIds t) (hb : b ∉ getAllTileIds t) :
    getAllTileIds (swapTiles t a b)
      = (getAllTileIds t).map (fun x => if x = a then b else x) ∧
    a ∉ getAllTileIds (swapTiles t a b) ∧
    b ∈ getAllTileIds (swapTiles t a b) ∧
    stripTileIds (swapTiles t a b) = stripTileIds t := by
  have hmap := swapTiles_ids_of_absent (t := t) (a := a) (b := b) hb
  have hab : b ≠ a := fun h => hb (h ▸ ha)
  refine ⟨hmap, ?_, ?_, swapTiles_strip a b⟩
  · rw [swapTiles, hmap]
    intro hmem
    obtain ⟨x, hx, hfx⟩ := List.mem_map.mp hmem
    by_cases hxa : x = a
    · rw [if_pos hxa] at hfx
      exact hab hfx
    · rw [if_neg hxa] at hfx
      exact hxa hfx
  · rw [swapTiles, hmap]
    exact List.mem_map.mpr ⟨a, ha, by simp⟩

/-- Witness for C10 at a concrete tree. -/
theorem swapTiles_absent_relabels_witness :
    getAllTileIds (swapTiles
        (.split "s" .vertical (1/2) (.leaf "la" "A") (.leaf "lc" "C")) "A" "B")
      = ["B", "C"] ∧
    "A" ∉ getAllTileIds (swapTiles
        (.split "s" .vertical (1/2) (.leaf "la" "A") (.leaf "lc" "C")) "A" "B") := by
  have h := swapTiles_absent_relabels
    (.split "s" .vertical (1/2) (.leaf "la" "A") (.leaf "lc" "C")) "A" "B"
    (by simp [getAllTileIds]) (by simp [getAllTileIds])
  exact ⟨by rw [h.1]; simp [getAllTileIds], h.2.1⟩

/-- C8: during a layout pass, a tile with a live proxy is transitioned to
Sleeping exactly when its computed rectangle is below the 200×150 threshold
and it is not the focused tile; a non-focused tile with bounds 150×300
sleeps, while the same bounds on the focused tile only update its view
bounds. -/
theorem sleep_threshold_focus_exemption :
    (∀ (hs : Bool) (b : Bounds) (tid : String) (focused : Option String),
      layoutPassAction true hs b tid focused = some .sleep ↔
        ((b.width < sleepThresholdWidth ∨ b.height < sleepThresholdHeight) ∧
          focused ≠ some tid)) ∧
    (∀ (hs : Bool) (tid : String) (focused : Option String),
      focused ≠ some tid →
      layoutPassAction true hs ⟨0, 0, 150, 300⟩ tid focused = some .sleep) ∧
    (∀ (hs : Bool) (tid : String),
      layoutPassAction true hs ⟨0, 0, 150, 300⟩ tid (some tid)
        = some .setBounds) := by
  have hiff : ∀ (hs : Bool) (b : Bounds) (tid : String) (focused : Option String),
      layoutPassAction true hs b tid focused = some .sleep ↔
        ((b.width < sleepThresholdWidth ∨ b.height < sleepThresholdHeight) ∧
          focused ≠ some tid) := by
    intro hs b tid focused
    by_cases h1 : b.width < sleepThresholdWidth ∨ b.height < sleepThresholdHeight <;>
      by_cases h2 : focused = some tid <;>
        simp [layoutPassAction, shouldSleep, h1, h2]
  refine ⟨hiff, ?_, ?_⟩
  · intro hs tid focused hfoc
    exact (hiff hs ⟨0, 0, 150, 300⟩ tid focused).mpr
      ⟨Or.inl (by norm_num [sleepThresholdWidth]), hfoc⟩
  · intro hs tid
    simp [layoutPassAction, shouldSleep, sleepThresholdWidth, sleepThresholdHeight]

/-- Witness for C8 at concrete inputs. -/
theorem sleep_threshold_focus_exemption_witness :
    layoutPassAction true false ⟨0, 0, 150, 300⟩ "t" (some "other")
      = some .sleep ∧
    layoutPassAction true false ⟨0, 0, 150, 300⟩ "t" (some "t")
      = some .setBounds :=
  ⟨sleep_threshold_focus_exemption.2.1 false "t" (some "other") (by simp),
   sleep_threshold_focus_exemption.2.2 false "t"⟩

/-- C2 counterexample: `splitNode` stores its ratio argument unclamped, so
splitting a leaf of an in-range tree with ratio `0.95` yields a tree whose
split ratio lies outside `[0.1, 0.9]`. -/
theorem splitNode_ratio_unclamped :
    ratiosInB (1/10) (9/10) (.leaf "a" "A") = true ∧
    splitNode (.leaf "a" "A") "A" .vertical (19/20) "NT" "NL" "NS"
      = some (.split "NS" .vertical (19/20) (.leaf "a" "A")
          (.leaf "NL" "NT"), "NT") ∧
    ratiosInB (1/10) (9/10)
      (.split "NS" .vertical (19/20) (.leaf "a" "A")
        (.leaf "NL" "NT")) = false := by
  refine ⟨rfl, ?_, ?_⟩
  · simp [splitNode, splitNodeRecursive, createLeaf]
  · norm_num [ratiosInB]

theorem clampRatio_mem (r : ℚ) :
    1/10 ≤ clampRatio r ∧ clampRatio r ≤ 9/10 :=
  ⟨le_max_left _ _, max_le (by norm_num) (min_le_left _ _)⟩

theorem ratiosInB_split_iff {lo hi : ℚ} {id : String} {d : SplitDirection}
    {r : ℚ} {f s : LayoutNode} :
    ratiosInB lo hi (.split id d r f s) = true ↔
      (lo ≤ r ∧ r ≤ hi ∧ ratiosInB lo hi f = true ∧ ratiosInB lo hi s = true) := by
  simp [ratiosInB, Bool.and_eq_true, and_assoc]

theorem ratiosInB_splitNodeRecursive {t f' : LayoutNode} {tid : String}
    {dir : SplitDirection} {r : ℚ} {nt nl ns : String}
    (ht : ratiosInB (1/10) (9/10) t = true) (h1 : 1/10 ≤ r) (h2 : r ≤ 9/10)
    (hs : splitNodeRecursive t tid dir r nt nl ns = some f') :
    ratiosInB (1/10) (9/10) f' = true := by
  induction t generalizing f' with
  | leaf id td =>
    rw [splitNodeRecursive] at hs
    by_cases hm : id = tid ∨ td = tid
    · rw [if_pos hm] at hs
      cases hs
      exact ratiosInB_split_iff.mpr ⟨h1, h2, rfl, rfl⟩
    · rw [if_neg hm] at hs
      cases hs
  | split sid d r0 f s ihf ihs =>
    obtain ⟨ha, hb, hf, hsec⟩ := ratiosInB_split_iff.mp ht
    rw [splitNodeRecursive] at hs
    rcases hrf : splitNodeRecursive f tid dir r nt nl ns with _ | fr <;>
      rw [hrf] at hs
    · rcases hrs : splitNodeRecursive s tid dir r nt nl ns with _ | sr <;>
        rw [hrs] at hs
      · cases hs
      · cases hs
        exact ratiosInB_split_iff.mpr ⟨ha, hb, hf, ihs hsec hrs⟩
    · cases hs
      exact ratiosInB_split_iff.mpr ⟨ha, hb, ihf hf hrf, hsec⟩

theorem ratiosInB_removeNode {t u : LayoutNode} {tid : String}
    (ht : ratiosInB (1/10) (9/10) t = true) (h : removeNode t tid = some u) :
    ratiosInB (1/10) (9/10) u = true := by
  induction t generalizing u with
  | leaf id td =>
    rw [removeNode] at h
    by_cases hm : id = tid ∨ td = tid
    · rw [if_pos hm] at h
      cases h
    · rw [if_neg hm] at h
      cases h
      exact ht
  | split sid d r f s ihf ihs =>
    obtain ⟨ha, hb, hf, hsec⟩ := ratiosInB_split_iff.mp ht
    rw [removeNode] at h
    by_cases h1 : matchesLeaf f tid = true
    · simp only [h1, if_true] at h
      cases h
      exact hsec
    · by_cases h2 : matchesLeaf s tid = true
      · simp only [h1, h2, Bool.false_eq_true, if_false, if_true] at h
        cases h
        exact hf
      · simp only [h1, h2, Bool.false_eq_true, if_false] at h
        rcases hrf : removeNode f tid with _ | nf <;> rw [hrf] at h
        · simp only [ne_eq, reduceCtorEq, not_false_eq_true, if_true] at h
          cases h
          exact hsec
        · by_cases e1 : nf = f
          · subst e1
            simp only [ne_eq, not_true_eq_false, if_false] at h
            rcases hrs : removeNode s tid with _ | ns <;> rw [hrs] at h
            · simp only [ne_eq, reduceCtorEq, not_false_eq_true, if_true] at h
              cases h
              exact hf
            · by_cases e2 : ns = s
              · subst e2
                simp only [ne_eq, not_true_eq_false, if_false] at h
                cases h
                exact ht
              · simp only [ne_eq, Option.some_inj, e2, not_false_eq_true,
                  if_true] at h
                cases h
                exact ratiosInB_split_iff.mpr ⟨ha, hb, hf, ihs hsec hrs⟩
          · simp only [ne_eq, Option.some_inj, e1, not_false_eq_true,
              if_true] at h
            cases h
            exact ratiosInB_split_iff.mpr ⟨ha, hb, ihf hf hrf, hsec⟩

theorem ratiosInB_resizeSplit {t : LayoutNode}
    (ht : ratiosInB (1/10) (9/10) t = true) (sid : String) (r : ℚ) :
    ratiosInB (1/10) (9/10) (resizeSplit t sid r) = true := by
  induction t with
  | leaf id td => exact ht
  | split sid0 d r0 f s ihf ihs =>
    obtain ⟨ha, hb, hf, hsec⟩ := ratiosInB_split_iff.mp ht
    rw [resizeSplit]
    by_cases hid : sid0 = sid
    · rw [if_pos hid]
      exact ratiosInB_split_iff.mpr
        ⟨(clampRatio_mem r).1, (clampRatio_mem r).2, hf, hsec⟩
    · rw [if_neg hid]
      exact ratiosInB_split_iff.mpr ⟨ha, hb, ihf hf, ihs hsec⟩

theorem ratiosInB_swapTiles {t : LayoutNode}
    (ht : ratiosInB (1/10) (9/10) t = true) (a b : String) :
    ratiosInB (1/10) (9/10) (swapTilesRecursive t a b) = true := by
  induction t with
  | leaf id td =>
    by_cases h1 : td = a <;> by_cases h2 : td = b <;>
      by_cases h3 : b = a <;>
        simp [swapTilesRecursive, ratiosInB, h1, h2, h3]
  | split sid d r f s ihf ihs =>
    obtain ⟨ha, hb, hf, hsec⟩ := ratiosInB_split_iff.mp ht
    exact ratiosInB_split_iff.mpr ⟨ha, hb, ihf hf, ihs hsec⟩

theorem ratiosInB_adjustSplitInDirection {t : LayoutNode}
    (ht : ratiosInB (1/10) (9/10) t = true) (tid : String) (dir : Direction)
    (delta : ℚ) :
    ratiosInB (1/10) (9/10) (adjustSplitInDirection t tid dir delta) = true := by
  rw [adjustSplitInDirection]
  by_cases he : findAncestorSplits t tid [] = []
  · rw [if_pos he]
    exact ht
  · rw [if_neg he]
    rcases hfind : (findAncestorSplits t tid []).reverse.find?
        (fun s => s.dirOf = some (targetSplitDir dir)) with _ | sp <;>
      simp only [hfind]
    · exact ht
    · exact ratiosInB_resizeSplit ht _ _

/-- C2 amended: the clamp-preserving operations keep every ratio in
`[0.1, 0.9]`: starting from a tree whose ratios all lie in `[0.1, 0.9]`,
`removeNode`, `resizeSplit`, `swapTiles` and `adjustSplitInDirection` always
yield trees whose ratios lie in `[0.1, 0.9]`, and `splitNode` does so
whenever its ratio argument itself lies in `[0.1, 0.9]` (it stores the
argument unclamped, so an out-of-range argument escapes the range — see the
counterexample). -/
theorem ratio_invariant_preservation (t : LayoutNode)
    (ht : ratiosInB (1/10) (9/10) t = true) :
    (∀ (tid : String) (dir : SplitDirection) (r : ℚ) (nt nl ns : String)
        (res : LayoutNode × String),
      1/10 ≤ r → r ≤ 9/10 →
      splitNode t tid dir r nt nl ns = some res →
      ratiosInB (1/10) (9/10) res.1 = true) ∧
    (∀ (tid : String) (u : LayoutNode), removeNode t tid = some u →
      ratiosInB (1/10) (9/10) u = true) ∧
    (∀ (sid : String) (r : ℚ),
      ratiosInB (1/10) (9/10) (resizeSplit t sid r) = true) ∧
    (∀ (a b : String),
      ratiosInB (1/10) (9/10) (swapTiles t a b) = true) ∧
    (∀ (tid : String) (dir : Direction) (delta : ℚ),
      ratiosInB (1/10) (9/10) (adjustSplitInDirection t tid dir delta) = true) := by
  refine ⟨?_, ?_, ?_, ?_, ?_⟩
  · intro tid dir r nt nl ns res h1 h2 hs
    rw [splitNode] at hs
    rcases hrec : splitNodeRecursive t tid dir r nt nl ns with _ | f' <;>
      rw [hrec] at hs
    · cases hs
    · cases hs
      exact ratiosInB_splitNodeRecursive ht h1 h2 hrec
  · intro tid u h
    exact ratiosInB_removeNode ht h
  · intro sid r
    exact ratiosInB_resizeSplit ht sid r
  · intro a b
    exact ratiosInB_swapTiles ht a b
  · intro tid dir delta
    exact ratiosInB_adjustSplitInDirection ht tid dir delta

/-- Witness for the amended C2 at concrete inputs. -/
theorem ratio_invariant_preservation_witness :
    ratiosInB (1/10) (9/10)
      (resizeSplit (.split "s" .vertical (1/2) (.leaf "a" "A") (.leaf "b" "B"))
        "s" 5) = true ∧
    ratiosInB (1/10) (9/10)
      (swapTiles (.split "s" .vertical (1/2) (.leaf "a" "A") (.leaf "b" "B"))
        "A" "B") = true := by
  have hin : ratiosInB (1/10) (9/10)
      (.split "s" .vertical (1/2) (.leaf "a" "A") (.leaf "b" "B")) = true := by
    rw [ratiosInB_split_iff]
    norm_num [ratiosInB]
  exact ⟨(ratio_invariant_preservation _ hin).2.2.1 "s" 5,
    (ratio_invariant_preservation _ hin).2.2.2.1 "A" "B"⟩

theorem stripRatios_resizeSplit (t : LayoutNode) (sid : String) (r : ℚ) :
    stripRatios (resizeSplit t sid r) = stripRatios t := by
  induction t with
  | leaf id td => rfl
  | split sid0 d r0 f s ihf ihs =>
    rw [resizeSplit]
    by_cases hid : sid0 = sid
    · rw [if_pos hid]
      simp [stripRatios]
    · rw [if_neg hid]
      simp [stripRatios, ihf, ihs]

theorem splitIds_split {id : String} {d : SplitDirection} {r : ℚ}
    {f s : LayoutNode} :
    splitIds (.split id d r f s) = id :: (splitIds f ++ splitIds s) := by
  simp [splitIds, splitRatios]

theorem splitRatios_map_id_of_not_mem {u : LayoutNode} {sid : String} (r : ℚ)
    (h : sid ∉ splitIds u) :
    (splitRatios u).map
        (fun p => if p.1 = sid then (p.1, clampRatio r) else p)
      = splitRatios u := by
  have : ∀ p ∈ splitRatios u,
      (fun p => if p.1 = sid then (p.1, clampRatio r) else p) p = p := by
    intro p hp
    have hne : p.1 ≠ sid := by
      intro he
      exact h (he ▸ List.mem_map_of_mem Prod.fst hp)
    simp [hne]
  rw [List.map_congr_left this]
  simp

theorem splitRatios_resizeSplit {t : LayoutNode} {sid : String} (r : ℚ)
    (hnodup : (splitIds t).Nodup) :
    splitRatios (resizeSplit t sid r)
      = (splitRatios t).map
          (fun p => if p.1 = sid then (p.1, clampRatio r) else p) := by
  induction t with
  | leaf id td => rfl
  | split sid0 d r0 f s ihf ihs =>
    rw [splitIds_split, List.nodup_cons, List.nodup_append] at hnodup
    obtain ⟨hout, hnf, hns, _⟩ := hnodup
    rw [resizeSplit]
    by_cases hid : sid0 = sid
    · rw [if_pos hid]
      subst hid
      have hf : sid0 ∉ splitIds f := fun h => hout (List.mem_append_left _ h)
      have hs : sid0 ∉ splitIds s := fun h => hout (List.mem_append_right _ h)
      simp only [splitRatios, List.map_cons, List.map_append,
        splitRatios_map_id_of_not_mem r hf, splitRatios_map_id_of_not_mem r hs]
      simp
    · rw [if_neg hid]
      simp only [splitRatios, List.map_cons, List.map_append, if_neg hid,
        ihf hnf, ihs hns]

/-- C7: `resizeSplit` silently clamps the new ratio into `[0.1, 0.9]` (it is
total — there is no error path), sets that clamped ratio on the split whose
id is `splitId`, and changes nothing else: the ratio-erased tree (structure,
node ids, directions, tile ids — in particular every subtree off the path to
that split) is unchanged, and the preorder list of `(split id, ratio)` pairs
is rewritten pointwise only at `splitId`. -/
theorem resizeSplit_spec (t : LayoutNode) (sid : String) (r : ℚ)
    (hnodup : (splitIds t).Nodup) :
    stripRatios (resizeSplit t sid r) = stripRatios t ∧
    splitRatios (resizeSplit t sid r)
      = (splitRatios t).map
          (fun p => if p.1 = sid then (p.1, clampRatio r) else p) ∧
    1/10 ≤ clampRatio r ∧ clampRatio r ≤ 9/10 :=
  ⟨stripRatios_resizeSplit t sid r, splitRatios_resizeSplit r hnodup,
    (clampRatio_mem r).1, (clampRatio_mem r).2⟩

/-- Witness for C7: resizing the inner split of a two-split tree with an
out-of-range ratio `2` clamps to `0.9`, rewrites exactly that split's ratio,
and leaves the ratio-erased tree unchanged. -/
theorem resizeSplit_spec_witness :
    stripRatios (resizeSplit
        (.split "s1" .horizontal (1/2) (.leaf "a" "A")
          (.split "s2" .vertical (3/10) (.leaf "b" "B") (.leaf "c" "C")))
        "s2" 2)
      = stripRatios
        (.split "s1" .horizontal (1/2) (.leaf "a" "A")
          (.split "s2" .vertical (3/10) (.leaf "b" "B") (.leaf "c" "C"))) ∧
    splitRatios (resizeSplit
        (.split "s1" .horizontal (1/2) (.leaf "a" "A")
          (.split "s2" .vertical (3/10) (.leaf "b" "B") (.leaf "c" "C")))
        "s2" 2)
      = [("s1", 1/2), ("s2", 9/10)] := by
  have h := resizeSplit_spec
    (.split "s1" .horizontal (1/2) (.leaf "a" "A")
      (.split "s2" .vertical (3/10) (.leaf "b" "B") (.leaf "c" "C")))
    "s2" 2 (by decide)
  refine ⟨h.1, ?_⟩
  rw [h.2.1]
  have hne : ("s1" : String) ≠ "s2" := by decide
  norm_num [splitRatios, clampRatio, hne]

theorem splitNodeRecursive_isSplit {t f' : LayoutNode} {L : String}
    {dir : SplitDirection} {r : ℚ} {nt nl ns : String}
    (hs : splitNodeRecursive t L dir r nt nl ns = some f') :
    ∃ (i : String) (d0 : SplitDirection) (r0 : ℚ) (a b : LayoutNode),
      f' = .split i d0 r0 a b := by
  cases t with
  | leaf id td =>
    rw [splitNodeRecursive] at hs
    by_cases hm : id = L ∨ td = L
    · rw [if_pos hm] at hs
      cases hs
      exact ⟨_, _, _, _, _, rfl⟩
    · rw [if_neg hm] at hs
      cases hs
  | split sid d r0 f s =>
    rw [splitNodeRecursive] at hs
    rcases h1 : splitNodeRecursive f L dir r nt nl ns with _ | fr <;>
      rw [h1] at hs
    · rcases h2 : splitNodeRecursive s L dir r nt nl ns with _ | sr <;>
        rw [h2] at hs
      · cases hs
      · cases hs
        exact ⟨_, _, _, _, _, rfl⟩
    · cases hs
      exact ⟨_, _, _, _, _, rfl⟩

theorem splitNodeRecursive_matchesLeaf_false {t f' : LayoutNode} {L : String}
    {dir : SplitDirection} {r : ℚ} {nt nl ns : String}
    (hs : splitNodeRecursive t L dir r nt nl ns = some f') (x : String) :
    matchesLeaf f' x = false := by
  obtain ⟨i, d0, r0, a, b, rfl⟩ := splitNodeRecursive_isSplit hs
  rfl

theorem splitNodeRecursive_count {t f' : LayoutNode} {L : String}
    {dir : SplitDirection} {r : ℚ} {nt nl ns : String}
    (hs : splitNodeRecursive t L dir r nt nl ns = some f') :
    countTiles f' = countTiles t + 1 := by
  induction t generalizing f' with
  | leaf id td =>
    rw [splitNodeRecursive] at hs
    by_cases hm : id = L ∨ td = L
    · rw [if_pos hm] at hs
      cases hs
      rfl
    · rw [if_neg hm] at hs
      cases hs
  | split sid d r0 f s ihf ihs =>
    rw [splitNodeRecursive] at hs
    rcases h1 : splitNodeRecursive f L dir r nt nl ns with _ | fr <;>
      rw [h1] at hs
    · rcases h2 : splitNodeRecursive s L dir r nt nl ns with _ | sr <;>
        rw [h2] at hs
      · cases hs
      · cases hs
        have := ihs h2
        simp only [countTiles, this]
        omega
    · cases hs
      have := ihf h1
      simp only [countTiles, this]
      omega

theorem splitNodeRecursive_some_of_occurs {t : LayoutNode} {L : String}
    (dir : SplitDirection) (r : ℚ) (nt nl ns : String)
    (h : leafOccurs t L = true) :
    ∃ f', splitNodeRecursive t L dir r nt nl ns = some f' := by
  induction t with
  | leaf id td =>
    exact ⟨.split ns dir r (.leaf id td) (createLeaf nl nt),
      by rw [splitNodeRecursive, if_pos (by simpa [leafOccurs] using h)]⟩
  | split sid d r0 f s ihf ihs =>
    rcases hrf : splitNodeRecursive f L dir r nt nl ns with _ | fr
    · rw [leafOccurs_split, Bool.or_eq_true] at h
      rcases h with h | h
      · obtain ⟨fr, hfr⟩ := ihf h
        rw [hfr] at hrf
        cases hrf
      · obtain ⟨sr, hsr⟩ := ihs h
        exact ⟨.split sid d r0 f sr, by rw [splitNodeRecursive, hrf, hsr]⟩
    · exact ⟨.split sid d r0 fr s, by rw [splitNodeRecursive, hrf]⟩

theorem removeNode_splitNodeRecursive {t f' : LayoutNode} {L : String}
    {dir : SplitDirection} {r : ℚ} {ntid nlid nsid : String}
    (hfresh : leafOccurs t ntid = false)
    (hs : splitNodeRecursive t L dir r ntid nlid nsid = some f') :
    removeNode f' ntid = some t := by
  induction t generalizing f' with
  | leaf id td =>
    rw [splitNodeRecursive] at hs
    by_cases hm : id = L ∨ td = L
    · rw [if_pos hm] at hs
      cases hs
      have h1 : matchesLeaf (.leaf id td) ntid = false :=
        matchesLeaf_false_of_not_occurs hfresh
      have h2 : matchesLeaf (createLeaf nlid ntid) ntid = true := by
        simp [createLeaf, matchesLeaf]
      simp only [removeNode, h1, h2, Bool.false_eq_true, if_false, if_true]
    · rw [if_neg hm] at hs
      cases hs
  | split sid d r0 f sec ihf ihs =>
    rw [leafOccurs_split, Bool.or_eq_false_iff] at hfresh
    obtain ⟨hff, hfs⟩ := hfresh
    rw [splitNodeRecursive] at hs
    rcases hrf : splitNodeRecursive f L dir r ntid nlid nsid with _ | fr <;>
      rw [hrf] at hs
    · rcases hrs : splitNodeRecursive sec L dir r ntid nlid nsid with _ | sr <;>
        rw [hrs] at hs
      · cases hs
      · cases hs
        have h1 : matchesLeaf f ntid = false := matchesLeaf_false_of_not_occurs hff
        have h2 : matchesLeaf sr ntid = false :=
          splitNodeRecursive_matchesLeaf_false hrs ntid
        have h3 : removeNode f ntid = some f := removeNode_no_match hff
        have h4 : removeNode sr ntid = some sec := ihs hfs hrs
        have h5 : sec ≠ sr := by
          intro he
          have hc := splitNodeRecursive_count hrs
          rw [← he] at hc
          omega
        simp only [removeNode, h1, h2, Bool.false_eq_true, if_false, h3, ne_eq,
          not_true_eq_false, if_false, h4, Option.some_inj, h5,
          not_false_eq_true, if_true]
    · cases hs
      have h1 : matchesLeaf fr ntid = false :=
        splitNodeRecursive_matchesLeaf_false hrf ntid
      have h2 : matchesLeaf sec ntid = false := matchesLeaf_false_of_not_occurs hfs
      have h3 : removeNode fr ntid = some f := ihf hff hrf
      have h4 : f ≠ fr := by
        intro he
        have hc := splitNodeRecursive_count hrf
        rw [← he] at hc
        omega
      simp only [removeNode, h1, h2, Bool.false_eq_true, if_false, h3, ne_eq,
        Option.some_inj, h4, not_false_eq_true, if_true]

/-- C3: splitting any tree at an existing leaf (matched by node id or tile
id) succeeds, and removing the freshly created tile from the result restores
the original tree exactly.  Freshness of the generated `newTileId` (`uuidv4`
never collides with an id already in the tree) is the hypothesis `hfresh`. -/
theorem split_remove_roundtrip (t : LayoutNode) (L : String)
    (dir : SplitDirection) (r : ℚ) (ntid nlid nsid : String)
    (hfound : leafOccurs t L = true)
    (hfresh : leafOccurs t ntid = false) :
    ∃ newRoot, splitNode t L dir r ntid nlid nsid = some (newRoot, ntid) ∧
      removeNode newRoot ntid = some t := by
  obtain ⟨f', hf'⟩ := splitNodeRecursive_some_of_occurs dir r ntid nlid nsid hfound
  refine ⟨f', ?_, removeNode_splitNodeRecursive hfresh hf'⟩
  rw [splitNode, hf']

/-- Witness for C3: splitting the leaf of a two-leaf tree and removing the
new tile restores the original tree. -/
theorem split_remove_roundtrip_witness :
    ∃ newRoot,
      splitNode (.split "s" .vertical (1/2) (.leaf "la" "A") (.leaf "lb" "B"))
        "B" .horizontal (3/10) "T2" "L2" "S2" = some (newRoot, "T2") ∧
      removeNode newRoot "T2"
        = some (.split "s" .vertical (1/2) (.leaf "la" "A") (.leaf "lb" "B")) :=
  split_remove_roundtrip
    (.split "s" .vertical (1/2) (.leaf "la" "A") (.leaf "lb" "B"))
    "B" .horizontal (3/10) "T2" "L2" "S2"
    (by simp [leafOccurs]) (by simp [leafOccurs])

theorem pickBest_step (cur : Bounds) (d : Direction) (c x : TileBounds)
    (xs : List TileBounds) :
    pickBest cur d c (x :: xs)
      = pickBest cur d
          (if dirScore cur x.bounds d < dirScore cur c.bounds d then x else c)
          xs := rfl

theorem pickBest_mem (cur : Bounds) (d : Direction) (c0 : TileBounds)
    (cs : List TileBounds) : pickBest cur d c0 cs ∈ c0 :: cs := by
  induction cs generalizing c0 with
  | nil => simp [pickBest]
  | cons x xs ih =>
    rw [pickBest_step]
    by_cases hlt : dirScore cur x.bounds d < dirScore cur c0.bounds d
    · rw [if_pos hlt]
      exact List.mem_cons_of_mem c0 (ih x)
    · rw [if_neg hlt]
      rcases List.mem_cons.mp (ih c0) with h | h
      · rw [h]
        exact List.mem_cons_self _ _
      · exact List.mem_cons_of_mem c0 (List.mem_cons_of_mem x h)

theorem pickBest_le (cur : Bounds) (d : Direction) (c0 : TileBounds)
    (cs : List TileBounds) :
    ∀ u ∈ c0 :: cs,
      dirScore cur (pickBest cur d c0 cs).bounds d ≤ dirScore cur u.bounds d := by
  induction cs generalizing c0 with
  | nil =>
    intro u hu
    rcases List.mem_singleton.mp hu with rfl
    simp [pickBest]
  | cons x xs ih =>
    intro u hu
    rw [pickBest_step]
    by_cases hlt : dirScore cur x.bounds d < dirScore cur c0.bounds d
    · rw [if_pos hlt]
      rcases List.mem_cons.mp hu with he | hu'
      · rw [he]
        exact le_trans (ih x x (List.mem_cons_self _ _)) (le_of_lt hlt)
      · exact ih x u hu'
    · rw [if_neg hlt]
      rcases List.mem_cons.mp hu with he | hu'
      · rw [he]
        exact ih c0 c0 (List.mem_cons_self _ _)
      · rcases List.mem_cons.mp hu' with he2 | hu''
        · rw [he2]
          exact le_trans (ih c0 c0 (List.mem_cons_self _ _)) (le_of_not_lt hlt)
        · exact ih c0 u (List.mem_cons_of_mem _ hu'')

theorem findAdjacentTile_found (tbs : List TileBounds) (curId : String)
    (d : Direction) (cur : TileBounds)
    (hfind : tbs.find? (fun t => t.tileId = curId) = some cur) :
    findAdjacentTile tbs curId d = adjacentFrom tbs curId d cur := by
  rw [findAdjacentTile, hfind]

theorem findAdjacentTile_eq_nil (tbs : List TileBounds) (curId : String)
    (d : Direction) (cur : TileBounds)
    (hfind : tbs.find? (fun t => t.tileId = curId) = some cur)
    (hfl : tbs.filter (fun t =>
      decide (t.tileId ≠ curId ∧ qualifies cur.bounds t.bounds d = true)) = []) :
    findAdjacentTile tbs curId d = none := by
  rw [findAdjacentTile_found tbs curId d cur hfind, adjacentFrom, hfl]

theorem findAdjacentTile_eq_cons (tbs : List TileBounds) (curId : String)
    (d : Direction) (cur c : TileBounds) (cs : List TileBounds)
    (hfind : tbs.find? (fun t => t.tileId = curId) = some cur)
    (hfl : tbs.filter (fun t =>
      decide (t.tileId ≠ curId ∧ qualifies cur.bounds t.bounds d = true))
        = c :: cs) :
    findAdjacentTile tbs curId d
      = some (pickBest cur.bounds d c cs).tileId := by
  rw [findAdjacentTile_found tbs curId d cur hfind, adjacentFrom, hfl]

theorem findAdjacentTile_pair_second {A B : Bounds} {aid bid : String}
    {d : Direction} (hab : aid ≠ bid) (hq : qualifies A B d = true) :
    findAdjacentTile [⟨aid, A⟩, ⟨bid, B⟩] aid d = some bid := by
  have hba : bid ≠ aid := fun h => hab h.symm
  have hfind : List.find? (fun t => decide (t.tileId = aid))
      [(⟨aid, A⟩ : TileBounds), ⟨bid, B⟩] = some ⟨aid, A⟩ := by
    simp [List.find?]
  have hfl : List.filter (fun t =>
      decide (t.tileId ≠ aid ∧ qualifies A t.bounds d = true))
      [(⟨aid, A⟩ : TileBounds), ⟨bid, B⟩] = [⟨bid, B⟩] := by
    simp [List.filter, hq, hba]
  rw [findAdjacentTile_eq_cons _ _ _ _ _ _ hfind hfl]
  rfl

theorem findAdjacentTile_pair_first {A B : Bounds} {aid bid : String}
    {d : Direction} (hab : aid ≠ bid) (hq : qualifies B A d = true) :
    findAdjacentTile [⟨aid, A⟩, ⟨bid, B⟩] bid d = some aid := by
  have hba : bid ≠ aid := fun h => hab h.symm
  have hfind : List.find? (fun t => decide (t.tileId = bid))
      [(⟨aid, A⟩ : TileBounds), ⟨bid, B⟩] = some ⟨bid, B⟩ := by
    simp [List.find?, hab]
  have hfl : List.filter (fun t =>
      decide (t.tileId ≠ bid ∧ qualifies B t.bounds d = true))
      [(⟨aid, A⟩ : TileBounds), ⟨bid, B⟩] = [⟨aid, A⟩] := by
    simp [List.filter, hq, hab]
  rw [findAdjacentTile_eq_cons _ _ _ _ _ _ hfind hfl]
  rfl

/-- C5: with the current tile located by id, a candidate qualifies exactly
when the directional edge test (5 px tolerance) holds and the primary-axis
center distance is strictly positive; the result is `null` exactly when no
candidate qualifies, and otherwise the returned tile qualifies and minimises
`alignment*2 + distance` among all qualifiers.  For the bounds of a single
vertical split, the search from the first leaf rightward returns the second,
and from the second leftward returns the first. -/
theorem findAdjacentTile_spec :
    (∀ (tbs : List TileBounds) (curId : String) (d : Direction)
        (cur : TileBounds),
      tbs.find? (fun t => t.tileId = curId) = some cur →
      ((findAdjacentTile tbs curId d = none ↔
         ∀ t ∈ tbs, t.tileId ≠ curId → qualifies cur.bounds t.bounds d = false) ∧
       (∀ res, findAdjacentTile tbs curId d = some res →
         ∃ t ∈ tbs, t.tileId = res ∧ t.tileId ≠ curId ∧
           qualifies cur.bounds t.bounds d = true ∧
           ∀ u ∈ tbs, u.tileId ≠ curId →
             qualifies cur.bounds u.bounds d = true →
             dirScore cur.bounds t.bounds d ≤ dirScore cur.bounds u.bounds d))) ∧
    (∀ (cb : Bounds) (rr : ℚ) (aid bid la lb sid : String), aid ≠ bid →
      0 < cb.width →
      findAdjacentTile
        (calculateBounds (.split sid .vertical rr (.leaf la aid) (.leaf lb bid)) cb)
        aid .right = some bid ∧
      findAdjacentTile
        (calculateBounds (.split sid .vertical rr (.leaf la aid) (.leaf lb bid)) cb)
        bid .left = some aid) := by
  constructor
  · intro tbs curId d cur hfind
    rcases hfl : tbs.filter (fun t =>
        decide (t.tileId ≠ curId ∧ qualifies cur.bounds t.bounds d = true))
      with _ | ⟨c, cs⟩
    · have heq := findAdjacentTile_eq_nil tbs curId d cur hfind hfl
      constructor
      · constructor
        · intro _ t ht hne
          cases hqv : qualifies cur.bounds t.bounds d
          · rfl
          · exfalso
            have hmem : t ∈ tbs.filter (fun t =>
                decide (t.tileId ≠ curId ∧
                  qualifies cur.bounds t.bounds d = true)) :=
              List.mem_filter.mpr ⟨ht, by simp [hne, hqv]⟩
            rw [hfl] at hmem
            cases hmem
        · intro _
          exact heq
      · intro res hres
        rw [heq] at hres
        cases hres
    · have heq := findAdjacentTile_eq_cons tbs curId d cur c cs hfind hfl
      constructor
      · constructor
        · intro hnone
          rw [heq] at hnone
          cases hnone
        · intro hall
          have hc : c ∈ tbs.filter (fun t =>
              decide (t.tileId ≠ curId ∧
                qualifies cur.bounds t.bounds d = true)) := by
            rw [hfl]
            exact List.mem_cons_self _ _
          rw [List.mem_filter] at hc
          have hc2 := of_decide_eq_true hc.2
          have := hall c hc.1 hc2.1
          rw [hc2.2] at this
          cases this
      · intro res hres
        rw [heq] at hres
        have hpb := pickBest_mem cur.bounds d c cs
        rw [← hfl] at hpb
        rw [List.mem_filter] at hpb
        have hpq := of_decide_eq_true hpb.2
        refine ⟨pickBest cur.bounds d c cs, hpb.1, ?_, hpq.1, hpq.2, ?_⟩
        · cases hres
          rfl
        · intro u hu hune huq
          have humem : u ∈ tbs.filter (fun t =>
              decide (t.tileId ≠ curId ∧
                qualifies cur.bounds t.bounds d = true)) :=
            List.mem_filter.mpr ⟨hu, by simp [hune, huq]⟩
          rw [hfl] at humem
          exact pickBest_le cur.bounds d c cs u humem
  · intro cb rr aid bid la lb sid hab hw
    have hcalc : calculateBounds
        (.split sid .vertical rr (.leaf la aid) (.leaf lb bid)) cb
        = [⟨aid, ⟨cb.x, cb.y, ((jsRound (cb.x + cb.width * rr) : ℤ) : ℚ) - cb.x,
              cb.height⟩⟩,
           ⟨bid, ⟨((jsRound (cb.x + cb.width * rr) : ℤ) : ℚ), cb.y,
              cb.x + cb.width - ((jsRound (cb.x + cb.width * rr) : ℤ) : ℚ),
              cb.height⟩⟩] := rfl
    rw [hcalc]
    have hpdr : primaryDistance
        ⟨cb.x, cb.y, ((jsRound (cb.x + cb.width * rr) : ℤ) : ℚ) - cb.x, cb.height⟩
        ⟨((jsRound (cb.x + cb.width * rr) : ℤ) : ℚ), cb.y,
          cb.x + cb.width - ((jsRound (cb.x + cb.width * rr) : ℤ) : ℚ), cb.height⟩
        .right = cb.width / 2 := by
      simp only [primaryDistance, centerX]
      ring
    have hpdl : primaryDistance
        ⟨((jsRound (cb.x + cb.width * rr) : ℤ) : ℚ), cb.y,
          cb.x + cb.width - ((jsRound (cb.x + cb.width * rr) : ℤ) : ℚ), cb.height⟩
        ⟨cb.x, cb.y, ((jsRound (cb.x + cb.width * rr) : ℤ) : ℚ) - cb.x, cb.height⟩
        .left = cb.width / 2 := by
      simp only [primaryDistance, centerX]
      ring
    constructor
    · refine findAdjacentTile_pair_second hab ?_
      rw [qualifies, hpdr]
      have h1 : isInDirection
          ⟨cb.x, cb.y, ((jsRound (cb.x + cb.width * rr) : ℤ) : ℚ) - cb.x,
            cb.height⟩
          ⟨((jsRound (cb.x + cb.width * rr) : ℤ) : ℚ), cb.y,
            cb.x + cb.width - ((jsRound (cb.x + cb.width * rr) : ℤ) : ℚ),
            cb.height⟩ .right = true := by
        simp only [isInDirection, decide_eq_true_eq]
        linarith
      rw [h1, Bool.true_and]
      exact decide_eq_true (by linarith)
    · refine findAdjacentTile_pair_first hab ?_
      rw [qualifies, hpdl]
      have h1 : isInDirection
          ⟨((jsRound (cb.x + cb.width * rr) : ℤ) : ℚ), cb.y,
            cb.x + cb.width - ((jsRound (cb.x + cb.width * rr) : ℤ) : ℚ),
            cb.height⟩
          ⟨cb.x, cb.y, ((jsRound (cb.x + cb.width * rr) : ℤ) : ℚ) - cb.x,
            cb.height⟩ .left = true := by
        simp only [isInDirection, decide_eq_true_eq]
        linarith
      rw [h1, Bool.true_and]
      exact decide_eq_true (by linarith)

/-- Witness for C5 on an 800×600 container split vertically at ratio 1/2. -/
theorem findAdjacentTile_spec_witness :
    findAdjacentTile
      (calculateBounds
        (.split "s" .vertical (1/2) (.leaf "la" "A") (.leaf "lb" "B"))
        ⟨0, 0, 800, 600⟩) "A" .right = some "B" ∧
    findAdjacentTile
      (calculateBounds
        (.split "s" .vertical (1/2) (.leaf "la" "A") (.leaf "lb" "B"))
        ⟨0, 0, 800, 600⟩) "B" .left = some "A" :=
  findAdjacentTile_spec.2 ⟨0, 0, 800, 600⟩ (1/2) "A" "B" "la" "lb" "s"
    (by decide) (by norm_num)

/-- C1 counterexample: on the container `{x:0, y:0, width:1.7, height:1}`
(positive width and height) with a single vertical split at ratio `0.9`
(inside the data-model range `[0.1, 0.9]`), the divider rounds to
`round(1.53) = 2`, so the first rectangle is `[0,2) × [0,1)`, which sticks
out of the container: the returned rectangles do not tile the container. -/
theorem calculateBounds_not_exact_on_fractional :
    (0 : ℚ) < (Bounds.mk 0 0 (17/10) 1).width ∧
    (0 : ℚ) < (Bounds.mk 0 0 (17/10) 1).height ∧
    ratiosInB (1/10) (9/10)
      (.split "s" .vertical (9/10) (.leaf "la" "A") (.leaf "lb" "B")) = true ∧
    ¬ ExactTiling
      (calculateBounds
        (.split "s" .vertical (9/10) (.leaf "la" "A") (.leaf "lb" "B"))
        ⟨0, 0, 17/10, 1⟩)
      ⟨0, 0, 17/10, 1⟩ := by
  refine ⟨by norm_num, by norm_num, by norm_num [ratiosInB], ?_⟩
  have hs : jsRound ((0 : ℚ) + 17/10 * (9/10)) = 2 := by
    rw [jsRound]
    norm_num
  have hcalc : calculateBounds
      (.split "s" .vertical (9/10) (.leaf "la" "A") (.leaf "lb" "B"))
      ⟨0, 0, 17/10, 1⟩
      = [⟨"A", ⟨0, 0, (2 : ℚ) - 0, 1⟩⟩, ⟨"B", ⟨2, 0, 0 + 17/10 - 2, 1⟩⟩] := by
    show [(⟨"A", ⟨0, 0, ((jsRound ((0 : ℚ) + 17/10 * (9/10)) : ℤ) : ℚ) - 0, 1⟩⟩ :
        TileBounds)] ++
      [⟨"B", ⟨((jsRound ((0 : ℚ) + 17/10 * (9/10)) : ℤ) : ℚ), 0,
        0 + 17/10 - ((jsRound ((0 : ℚ) + 17/10 * (9/10)) : ℤ) : ℚ), 1⟩⟩] = _
    rw [hs]
    norm_num
  rintro ⟨hcov, _⟩
  have hmem : coveredBy (calculateBounds
      (.split "s" .vertical (9/10) (.leaf "la" "A") (.leaf "lb" "B"))
      ⟨0, 0, 17/10, 1⟩) (9/5) (1/2) := by
    rw [hcalc]
    exact ⟨⟨"A", ⟨0, 0, (2 : ℚ) - 0, 1⟩⟩, List.mem_cons_self _ _,
      by norm_num, by norm_num, by norm_num, by norm_num⟩
  have hinc := (hcov (9/5) (1/2)).mp hmem
  have : (9 : ℚ)/5 < 0 + 17/10 := hinc.2.1
  linarith

/-- `ratiosInB` widens from `[0.1, 0.9]` to `[0, 1]`. -/
theorem ratiosInB_mono {t : LayoutNode}
    (h : ratiosInB (1/10) (9/10) t = true) : ratiosInB 0 1 t = true := by
  induction t with
  | leaf id tid => rfl
  | split id d r f s ihf ihs =>
    obtain ⟨h1, h2, hf, hs⟩ := ratiosInB_split_iff.mp h
    exact ratiosInB_split_iff.mpr ⟨by linarith, by linarith, ihf hf, ihs hs⟩

theorem jsRound_ge {a : ℤ} {q : ℚ} (h : (a : ℚ) ≤ q) : a ≤ jsRound q := by
  rw [jsRound]
  exact Int.le_floor.mpr (by linarith)

theorem jsRound_le {b : ℤ} {q : ℚ} (h : q ≤ (b : ℚ)) : jsRound q ≤ b := by
  rw [jsRound]
  have hlt : ⌊q + 1/2⌋ < b + 1 := Int.floor_lt.mpr (by push_cast; linarith)
  omega

theorem IsInt.add {a b : ℚ} (ha : IsInt a) (hb : IsInt b) : IsInt (a + b) := by
  obtain ⟨n, rfl⟩ := ha
  obtain ⟨m, rfl⟩ := hb
  exact ⟨n + m, by push_cast; ring⟩

theorem IsInt.sub {a b : ℚ} (ha : IsInt a) (hb : IsInt b) : IsInt (a - b) := by
  obtain ⟨n, rfl⟩ := ha
  obtain ⟨m, rfl⟩ := hb
  exact ⟨n - m, by push_cast; ring⟩

theorem IsInt.intCast (n : ℤ) : IsInt ((n : ℤ) : ℚ) := ⟨n, rfl⟩

/-- The rounded divider stays at or after the (integer) origin. -/
theorem jsRound_div_lb {x w r : ℚ} (hx : IsInt x) (hw : 0 ≤ w) (hr0 : 0 ≤ r) :
    x ≤ ((jsRound (x + w * r) : ℤ) : ℚ) := by
  obtain ⟨nx, rfl⟩ := hx
  have h1 : ((nx : ℚ)) ≤ (nx : ℚ) + w * r := by nlinarith
  exact_mod_cast Int.cast_le.mpr (jsRound_ge h1)

/-- The rounded divider stays at or before the (integer) far edge. -/
theorem jsRound_div_ub {x w r : ℚ} (hx : IsInt x) (hwi : IsInt w) (hw : 0 ≤ w)
    (hr1 : r ≤ 1) :
    ((jsRound (x + w * r) : ℤ) : ℚ) ≤ x + w := by
  obtain ⟨nx, rfl⟩ := hx
  obtain ⟨nw, rfl⟩ := hwi
  have h1 : (nx : ℚ) + (nw : ℚ) * r ≤ ((nx + nw : ℤ) : ℚ) := by
    push_cast
    nlinarith
  have h2 := jsRound_le h1
  have h3 : ((jsRound ((nx : ℚ) + (nw : ℚ) * r) : ℤ) : ℚ) ≤ ((nx + nw : ℤ) : ℚ) :=
    Int.cast_le.mpr h2
  push_cast at h3 ⊢
  linarith

theorem inRect_vsplit_union {x y w h s px py : ℚ} (h1 : x ≤ s)
    (h2 : s ≤ x + w) :
    (inRect ⟨x, y, s - x, h⟩ px py ∨ inRect ⟨s, y, x + w - s, h⟩ px py) ↔
      inRect ⟨x, y, w, h⟩ px py := by
  unfold inRect
  simp only
  constructor
  · rintro (⟨a, b, c, d⟩ | ⟨a, b, c, d⟩) <;>
      exact ⟨by linarith, by linarith, c, d⟩
  · rintro ⟨a, b, c, d⟩
    by_cases hp : px < s
    · exact Or.inl ⟨a, by linarith, c, d⟩
    · exact Or.inr ⟨le_of_not_lt hp, by linarith, c, d⟩

theorem inRect_vsplit_disj {x y w h s px py : ℚ} :
    inRect ⟨x, y, s - x, h⟩ px py → ¬ inRect ⟨s, y, x + w - s, h⟩ px py := by
  rintro ⟨a, b, c, d⟩ ⟨e, f, g, k⟩
  simp only at b e
  linarith

theorem inRect_hsplit_union {x y w h s px py : ℚ} (h1 : y ≤ s)
    (h2 : s ≤ y + h) :
    (inRect ⟨x, y, w, s - y⟩ px py ∨ inRect ⟨x, s, w, y + h - s⟩ px py) ↔
      inRect ⟨x, y, w, h⟩ px py := by
  unfold inRect
  simp only
  constructor
  · rintro (⟨a, b, c, d⟩ | ⟨a, b, c, d⟩) <;>
      exact ⟨a, b, by linarith, by linarith⟩
  · rintro ⟨a, b, c, d⟩
    by_cases hp : py < s
    · exact Or.inl ⟨a, b, c, by linarith⟩
    · exact Or.inr ⟨a, b, le_of_not_lt hp, by linarith⟩

theorem inRect_hsplit_disj {x y w h s px py : ℚ} :
    inRect ⟨x, y, w, s - y⟩ px py → ¬ inRect ⟨x, s, w, y + h - s⟩ px py := by
  rintro ⟨a, b, c, d⟩ ⟨e, f, g, k⟩
  simp only at d g
  linarith

theorem coveredBy_append {l1 l2 : List TileBounds} {px py : ℚ} :
    coveredBy (l1 ++ l2) px py ↔ coveredBy l1 px py ∨ coveredBy l2 px py := by
  unfold coveredBy
  constructor
  · rintro ⟨tb, htb, hin⟩
    rcases List.mem_append.mp htb with hm | hm
    · exact Or.inl ⟨tb, hm, hin⟩
    · exact Or.inr ⟨tb, hm, hin⟩
  · rintro (⟨tb, htb, hin⟩ | ⟨tb, htb, hin⟩)
    · exact ⟨tb, List.mem_append_left _ htb, hin⟩
    · exact ⟨tb, List.mem_append_right _ htb, hin⟩

/-- Every rectangle produced by `calculateBounds` stays inside its container
(integer container, nonnegative extent, ratios in `[0, 1]`). -/
theorem calcBounds_subset (t : LayoutNode) :
    ∀ cb : Bounds, IntRect cb → 0 ≤ cb.width → 0 ≤ cb.height →
      ratiosInB 0 1 t = true →
      ∀ tb ∈ calculateBounds t cb, ∀ px py : ℚ,
        inRect tb.bounds px py → inRect cb px py := by
  induction t with
  | leaf id tid =>
    intro cb _ _ _ _ tb htb px py hin
    rcases List.mem_singleton.mp htb with rfl
    exact hin
  | split sid d r f sec ihf ihs =>
    intro cb hint hw hh hr tb htb px py hin
    obtain ⟨hr0, hr1, hrf, hrs⟩ := ratiosInB_split_iff.mp hr
    obtain ⟨hix, hiy, hiw, hih⟩ := hint
    cases d with
    | vertical =>
      have hunf : calculateBounds (.split sid .vertical r f sec) cb
          = calculateBounds f ⟨cb.x, cb.y,
              ((jsRound (cb.x + cb.width * r) : ℤ) : ℚ) - cb.x, cb.height⟩
            ++ calculateBounds sec ⟨((jsRound (cb.x + cb.width * r) : ℤ) : ℚ),
              cb.y, cb.x + cb.width - ((jsRound (cb.x + cb.width * r) : ℤ) : ℚ),
              cb.height⟩ := rfl
      have hsl : cb.x ≤ ((jsRound (cb.x + cb.width * r) : ℤ) : ℚ) :=
        jsRound_div_lb hix hw hr0
      have hsu : ((jsRound (cb.x + cb.width * r) : ℤ) : ℚ) ≤ cb.x + cb.width :=
        jsRound_div_ub hix hiw hw hr1
      rw [hunf] at htb
      rcases List.mem_append.mp htb with hm | hm
      · have hfb := ihf ⟨cb.x, cb.y,
            ((jsRound (cb.x + cb.width * r) : ℤ) : ℚ) - cb.x, cb.height⟩
          ⟨hix, hiy, IsInt.sub (IsInt.intCast _) hix, hih⟩
          (by simp only; linarith) hh hrf tb hm px py hin
        exact (inRect_vsplit_union hsl hsu).mp (Or.inl hfb)
      · have hsb := ihs ⟨((jsRound (cb.x + cb.width * r) : ℤ) : ℚ), cb.y,
            cb.x + cb.width - ((jsRound (cb.x + cb.width * r) : ℤ) : ℚ),
            cb.height⟩
          ⟨IsInt.intCast _, hiy, IsInt.sub (IsInt.add hix hiw) (IsInt.intCast _),
            hih⟩
          (by simp only; linarith) hh hrs tb hm px py hin
        exact (inRect_vsplit_union hsl hsu).mp (Or.inr hsb)
    | horizontal =>
      have hunf : calculateBounds (.split sid .horizontal r f sec) cb
          = calculateBounds f ⟨cb.x, cb.y, cb.width,
              ((jsRound (cb.y + cb.height * r) : ℤ) : ℚ) - cb.y⟩
            ++ calculateBounds sec ⟨cb.x,
              ((jsRound (cb.y + cb.height * r) : ℤ) : ℚ), cb.width,
              cb.y + cb.height - ((jsRound (cb.y + cb.height * r) : ℤ) : ℚ)⟩ := rfl
      have hsl : cb.y ≤ ((jsRound (cb.y + cb.height * r) : ℤ) : ℚ) :=
        jsRound_div_lb hiy hh hr0
      have hsu : ((jsRound (cb.y + cb.height * r) : ℤ) : ℚ) ≤ cb.y + cb.height :=
        jsRound_div_ub hiy hih hh hr1
      rw [hunf] at htb
      rcases List.mem_append.mp htb with hm | hm
      · have hfb := ihf ⟨cb.x, cb.y, cb.width,
            ((jsRound (cb.y + cb.height * r) : ℤ) : ℚ) - cb.y⟩
          ⟨hix, hiy, hiw, IsInt.sub (IsInt.intCast _) hiy⟩
          hw (by simp only; linarith) hrf tb hm px py hin
        exact (inRect_hsplit_union hsl hsu).mp (Or.inl hfb)
      · have hsb := ihs ⟨cb.x, ((jsRound (cb.y + cb.height * r) : ℤ) : ℚ),
            cb.width, cb.y + cb.height - ((jsRound (cb.y + cb.height * r) : ℤ) : ℚ)⟩
          ⟨hix, IsInt.intCast _, hiw, IsInt.sub (IsInt.add hiy hih) (IsInt.intCast _)⟩
          hw (by simp only; linarith) hrs tb hm px py hin
        exact (inRect_hsplit_union hsl hsu).mp (Or.inr hsb)

/-- The rectangles of `calculateBounds` exactly tile an integer container
with nonnegative extent when every ratio lies in `[0, 1]`. -/
theorem calcBounds_tiling (t : LayoutNode) :
    ∀ cb : Bounds, IntRect cb → 0 ≤ cb.width → 0 ≤ cb.height →
      ratiosInB 0 1 t = true →
      ExactTiling (calculateBounds t cb) cb := by
  induction t with
  | leaf id tid =>
    intro cb _ _ _ _
    constructor
    · intro px py
      constructor
      · rintro ⟨tb, htb, hin⟩
        rcases List.mem_singleton.mp htb with rfl
        exact hin
      · intro hmem
        exact ⟨⟨tid, cb⟩, List.mem_singleton.mpr rfl, hmem⟩
    · exact List.pairwise_singleton _ _
  | split sid d r f sec ihf ihs =>
    intro cb hint hw hh hr
    obtain ⟨hr0, hr1, hrf, hrs⟩ := ratiosInB_split_iff.mp hr
    obtain ⟨hix, hiy, hiw, hih⟩ := hint
    cases d with
    | vertical =>
      have hunf : calculateBounds (.split sid .vertical r f sec) cb
          = calculateBounds f ⟨cb.x, cb.y,
              ((jsRound (cb.x + cb.width * r) : ℤ) : ℚ) - cb.x, cb.height⟩
            ++ calculateBounds sec ⟨((jsRound (cb.x + cb.width * r) : ℤ) : ℚ),
              cb.y, cb.x + cb.width - ((jsRound (cb.x + cb.width * r) : ℤ) : ℚ),
              cb.height⟩ := rfl
      have hsl : cb.x ≤ ((jsRound (cb.x + cb.width * r) : ℤ) : ℚ) :=
        jsRound_div_lb hix hw hr0
      have hsu : ((jsRound (cb.x + cb.width * r) : ℤ) : ℚ) ≤ cb.x + cb.width :=
        jsRound_div_ub hix hiw hw hr1
      have hfbInt : IntRect ⟨cb.x, cb.y,
          ((jsRound (cb.x + cb.width * r) : ℤ) : ℚ) - cb.x, cb.height⟩ :=
        ⟨hix, hiy, IsInt.sub (IsInt.intCast _) hix, hih⟩
      have hsbInt : IntRect ⟨((jsRound (cb.x + cb.width * r) : ℤ) : ℚ), cb.y,
          cb.x + cb.width - ((jsRound (cb.x + cb.width * r) : ℤ) : ℚ),
          cb.height⟩ :=
        ⟨IsInt.intCast _, hiy, IsInt.sub (IsInt.add hix hiw) (IsInt.intCast _),
          hih⟩
      have hfbW : (0 : ℚ) ≤ ((jsRound (cb.x + cb.width * r) : ℤ) : ℚ) - cb.x := by
        linarith
      have hsbW : (0 : ℚ) ≤ cb.x + cb.width
          - ((jsRound (cb.x + cb.width * r) : ℤ) : ℚ) := by
        linarith
      have htf := ihf _ hfbInt hfbW hh hrf
      have hts := ihs _ hsbInt hsbW hh hrs
      constructor
      · intro px py
        rw [hunf, coveredBy_append, htf.1 px py, hts.1 px py]
        exact inRect_vsplit_union hsl hsu
      · rw [hunf, List.pairwise_append]
        refine ⟨htf.2, hts.2, ?_⟩
        intro a ha b hb px py hina
        have h1 := calcBounds_subset f _ hfbInt hfbW hh hrf a ha px py hina
        intro hinb
        have h2 := calcBounds_subset sec _ hsbInt hsbW hh hrs b hb px py hinb
        exact inRect_vsplit_disj h1 h2
    | horizontal =>
      have hunf : calculateBounds (.split sid .horizontal r f sec) cb
          = calculateBounds f ⟨cb.x, cb.y, cb.width,
              ((jsRound (cb.y + cb.height * r) : ℤ) : ℚ) - cb.y⟩
            ++ calculateBounds sec ⟨cb.x,
              ((jsRound (cb.y + cb.height * r) : ℤ) : ℚ), cb.width,
              cb.y + cb.height - ((jsRound (cb.y + cb.height * r) : ℤ) : ℚ)⟩ := rfl
      have hsl : cb.y ≤ ((jsRound (cb.y + cb.height * r) : ℤ) : ℚ) :=
        jsRound_div_lb hiy hh hr0
      have hsu : ((jsRound (cb.y + cb.height * r) : ℤ) : ℚ) ≤ cb.y + cb.height :=
        jsRound_div_ub hiy hih hh hr1
      have hfbInt : IntRect ⟨cb.x, cb.y, cb.width,
          ((jsRound (cb.y + cb.height * r) : ℤ) : ℚ) - cb.y⟩ :=
        ⟨hix, hiy, hiw, IsInt.sub (IsInt.intCast _) hiy⟩
      have hsbInt : IntRect ⟨cb.x, ((jsRound (cb.y + cb.height * r) : ℤ) : ℚ),
          cb.width, cb.y + cb.height - ((jsRound (cb.y + cb.height * r) : ℤ) : ℚ)⟩ :=
        ⟨hix, IsInt.intCast _, hiw, IsInt.sub (IsInt.add hiy hih) (IsInt.intCast _)⟩
      have hfbH : (0 : ℚ) ≤ ((jsRound (cb.y + cb.height * r) : ℤ) : ℚ) - cb.y := by
        linarith
      have hsbH : (0 : ℚ) ≤ cb.y + cb.height
          - ((jsRound (cb.y + cb.height * r) : ℤ) : ℚ) := by
        linarith
      have htf := ihf _ hfbInt hw hfbH hrf
      have hts := ihs _ hsbInt hw hsbH hrs
      constructor
      · intro px py
        rw [hunf, coveredBy_append, htf.1 px py, hts.1 px py]
        exact inRect_hsplit_union hsl hsu
      · rw [hunf, List.pairwise_append]
        refine ⟨htf.2, hts.2, ?_⟩
        intro a ha b hb px py hina
        have h1 := calcBounds_subset f _ hfbInt hw hfbH hrf a ha px py hina
        intro hinb
        have h2 := calcBounds_subset sec _ hsbInt hw hsbH hrs b hb px py hinb
        exact inRect_hsplit_disj h1 h2

/-- C1 amended: for every layout tree whose ratios satisfy the data-model
invariant `[0.1, 0.9]` and every container rectangle with positive width and
height whose coordinates are integers, `calculateBounds` partitions exactly:
as half-open rectangles, the returned list covers precisely the container's
points and no two returned rectangles overlap.  (On containers with
fractional coordinates the rounding can overshoot the far edge — see the
counterexample.) -/
theorem calculateBounds_exact_tiling (t : LayoutNode) (cb : Bounds)
    (hint : IntRect cb) (hw : 0 < cb.width) (hh : 0 < cb.height)
    (hr : ratiosInB (1/10) (9/10) t = true) :
    ExactTiling (calculateBounds t cb) cb :=
  calcBounds_tiling t cb hint (le_of_lt hw) (le_of_lt hh) (ratiosInB_mono hr)

/-- Witness for the amended C1: an 800×600 container with one vertical split
at ratio 1/2 is tiled exactly. -/
theorem calculateBounds_exact_tiling_witness :
    ExactTiling
      (calculateBounds
        (.split "s" .vertical (1/2) (.leaf "la" "A") (.leaf "lb" "B"))
        ⟨0, 0, 800, 600⟩)
      ⟨0, 0, 800, 600⟩ :=
  calculateBounds_exact_tiling
    (.split "s" .vertical (1/2) (.leaf "la" "A") (.leaf "lb" "B"))
    ⟨0, 0, 800, 600⟩
    ⟨⟨0, by norm_num⟩, ⟨0, by norm_num⟩, ⟨800, by norm_num⟩, ⟨600, by norm_num⟩⟩
    (by norm_num) (by norm_num) (by norm_num [ratiosInB])

end Tilora
